import Mathlib

/-!
Verification of `src/web/react/utils/text_formatting.jsx`: the token-substitution
text-formatting pipeline (`formatText` and its passes).

The embedding works over `List Char` (called `Str` below).  JavaScript string
and regex operations are modelled explicitly:

* `String.prototype.replace` with a plain-string pattern replaces only the first
  occurrence; the replacement is spliced literally (the aliases and token values
  this program substitutes contain no `$` replacement patterns).
* `replace` with a `/g` regex and a callback is modelled by a left-to-right
  scanner specialised to each regex of the source; `^` matches only at
  position 0, `\w`/`\W` is the ASCII word class `[A-Za-z0-9_]`, `\s` is
  modelled by the ASCII whitespace characters, and `\b` is the usual
  word-boundary test.
* A JavaScript `Map` is an insertion-ordered association list; `Map.set`
  overwrites in place when the key exists and appends otherwise.

External collaborators (the Autolinker match engine, the user directory, the
current user's mention keys and the markdown renderer) are parameters of the
pipeline, bundled in `Env`.
-/

namespace TextFormatting

/-- Text is modelled as a list of characters. -/
abbrev Str := List Char

/-- A Lean string literal as a character list. -/
def lit (s : String) : Str := s.toList

/-- JavaScript regex `\w`: ASCII letters, digits and underscore. -/
def isWordChar (c : Char) : Bool := c.isAlphanum || c = '_'

/-- JavaScript regex `\s`, restricted to the ASCII whitespace characters
(space, tab, newline, carriage return, vertical tab, form feed). -/
def isSpaceChar (c : Char) : Bool :=
  c = ' ' || c = '\t' || c = '\n' || c = '\r' || c = Char.ofNat 11 || c = Char.ofNat 12

/-- Whether an optional character is a word character (out of range counts as
not a word character). -/
def optWord : Option Char → Bool
  | some c => isWordChar c
  | none => false

/-- JavaScript regex `\b` between two positions: exactly one neighbour is a
word character. -/
def isBoundary (prev next : Option Char) : Bool := optWord prev != optWord next

/-- Decimal digit characters. -/
def digitChar : Nat → Char
  | 0 => '0' | 1 => '1' | 2 => '2' | 3 => '3' | 4 => '4'
  | 5 => '5' | 6 => '6' | 7 => '7' | 8 => '8' | 9 => '9'
  | _ + 10 => '*'

/-- Decimal digits of a natural number; structural recursion on a fuel bound
(the fuel `n + 1` of `natDigits` always suffices). -/
def natDigitsAux : Nat → Nat → Str
  | 0, _ => []
  | fuel + 1, n =>
    if n < 10 then [digitChar n]
    else natDigitsAux fuel (n / 10) ++ [digitChar (n % 10)]

/-- The decimal representation of `n`, as produced by JavaScript string
interpolation of a number. -/
def natDigits (n : Nat) : Str := natDigitsAux (n + 1) n

/-- `String.prototype.replace` with a plain-string pattern: replace the first
occurrence of `pat` in `s` by `repl` (literally); if `pat` does not occur,
return `s` unchanged.  An empty pattern matches at position 0. -/
def replaceFirst (s pat repl : Str) : Str :=
  if pat.isPrefixOf s then repl ++ s.drop pat.length
  else
    match s with
    | [] => []
    | c :: rest => c :: replaceFirst rest pat repl

/-- A token of the shared store: the final HTML (`value`) for a span and the
raw text the span replaced (`originalText`). -/
structure Token where
  value : Str
  originalText : Str
deriving DecidableEq

/-- The token store: a JavaScript `Map` from alias to token, in insertion
order. -/
abbrev TokenStore := List (Str × Token)

/-- `Map.prototype.set`: overwrite in place when the key is present, append
otherwise. -/
def mapSet (m : TokenStore) (k : Str) (v : Token) : TokenStore :=
  if m.any (fun e => e.1 = k) then
    m.map (fun e => if e.1 = k then (k, v) else e)
  else m ++ [(k, v)]

/-- `replaceTokens`: iterate backwards through the map (reverse insertion
order), replacing each alias in the text by the token's `value` (first
occurrence, plain-string replace). -/
def replaceTokens (text : Str) (tokens : TokenStore) : Str :=
  tokens.reverse.foldl (fun out e => replaceFirst out e.1 e.2.value) text

/-- Replace every occurrence of the character `c` in `s` by `repl`
(a JavaScript `/c/g` regex replace with a single-character pattern). -/
def replaceCharAll (s : Str) (c : Char) (repl : Str) : Str :=
  s.flatMap (fun x => if x = c then repl else [x])

/-- `sanitizeHtml`: escape `&`, `<`, `>`, `'`, `"` to named entities, each
globally, in that order (ampersand first). -/
def sanitizeHtml (text : Str) : Str :=
  let o1 := replaceCharAll text '&' (lit "&amp;")
  let o2 := replaceCharAll o1 '<' (lit "&lt;")
  let o3 := replaceCharAll o2 '>' (lit "&gt;")
  let o4 := replaceCharAll o3 '\'' (lit "&apos;")
  let o5 := replaceCharAll o4 '"' (lit "&quot;")
  o5

/-- `replaceNewlines`: replace every newline by a single space. -/
def replaceNewlines (text : Str) : Str := replaceCharAll text '\n' [' ']

example : sanitizeHtml (lit "a<b>&c") = lit "a&lt;b&gt;&amp;c" := by decide
example : replaceFirst (lit "xayaz") (lit "a") (lit "BB") = lit "xBByaz" := by decide
example : natDigits 12 = ['1', '2'] := by decide

/-! ### Alias prefixes -/

/-- Category prefix of link aliases (`MM_LINK<i>`). -/
def linkPfx : Str := lit "MM_LINK"

/-- Category prefix of at-mention aliases (`MM_ATMENTION<i>`). -/
def atMentionPfx : Str := lit "MM_ATMENTION"

/-- Category prefix of hashtag aliases (`MM_HASHTAG<i>`). -/
def hashtagPfx : Str := lit "MM_HASHTAG"

/-- Category prefix of search-term aliases (`MM_SEARCHTERM<i>`). -/
def searchTermPfx : Str := lit "MM_SEARCHTERM"

/-- Category prefix of self-mention aliases (`MM_SELFMENTION<i>`). -/
def selfMentionPfx : Str := lit "MM_SELFMENTION"

/-- The five category prefixes of aliases that enter the shared store. -/
def storePfxs : List Str :=
  [linkPfx, atMentionPfx, hashtagPfx, searchTermPfx, selfMentionPfx]

/-! ### Link tokenizer (`autolinkUrls`) -/

/-- The result of the external Autolinker match engine on a text: a
segmentation into plain stretches and matched URL/email spans.  The engine is
out of scope of the source file; a well-formed segmentation concatenates back
to the input (`segsConcat`). -/
inductive Seg where
  | plain (s : Str)
  | link (s : Str)
deriving DecidableEq

/-- The characters of a segment. -/
def segStr : Seg → Str
  | .plain s => s
  | .link s => s

/-- Concatenation of a segmentation. -/
def segsConcat (l : List Seg) : Str := l.flatMap segStr

/-- A detector that never matches anything (every text is one plain segment). -/
def noLinkDetect : Str → List Seg := fun t => [Seg.plain t]

/-- The anchor value registered for a link match: the target is the matched
text with `http://` prefixed when it does not already start with `http`
(`url.lastIndexOf('http', 0) !== 0`), the visible label is the original
matched text. -/
def linkValue (linkText : Str) : Str :=
  let url := if (lit "http").isPrefixOf linkText then linkText
    else lit "http://" ++ linkText
  lit "<a class='theme' target='_blank' href='" ++ url ++ lit "'>" ++
    linkText ++ lit "</a>"

/-- `replaceUrlWithToken` (the Autolinker `replaceFn`): register an `MM_LINK`
token whose value is the normalized anchor, and return the alias. -/
def replaceUrlWithToken (tokens : TokenStore) (linkText : Str) : TokenStore × Str :=
  let aliasStr := linkPfx ++ natDigits tokens.length
  (mapSet tokens aliasStr ⟨linkValue linkText, linkText⟩, aliasStr)

/-- One segment of the Autolinker output: a plain stretch is copied, a matched
span is replaced by the alias `replaceUrlWithToken` returns. -/
def autolinkerStep (acc : Str × TokenStore) (seg : Seg) : Str × TokenStore :=
  match seg with
  | .plain s => (acc.1 ++ s, acc.2)
  | .link s =>
      let r := replaceUrlWithToken acc.2 s
      (acc.1 ++ r.2, r.1)

/-- `autolinker.link(output)` with `replaceFn = replaceUrlWithToken`: the
external engine segments the text; each matched span is replaced by the alias
the callback returns. -/
def autolinkerLink (segs : List Seg) (tokens : TokenStore) : Str × TokenStore :=
  segs.foldl autolinkerStep ([], tokens)

/-- Alias of the private (call-scoped) markdown-link map. -/
def mdAlias (n : Nat) : Str := lit "MM_MARKDOWNLINK" ++ natDigits n

/-- The `/\]\([^\)]*\)/g` replace of `autolinkUrls`: every markdown link tail
`](...)` is replaced by a private placeholder recorded in the call-scoped map
(the stored token's `value` is the original matched text).  Structural fuel
recursion; each step consumes at least one character, so fuel
`length + 1` always suffices. -/
def shieldMdAux : Nat → Str → TokenStore → Str × TokenStore
  | 0, s, md => (s, md)
  | fuel + 1, s, md =>
    match s with
    | ']' :: '(' :: rest =>
        let inside := rest.takeWhile (fun c => c ≠ ')')
        let rest1 := rest.drop inside.length
        (match rest1 with
         | ')' :: rest2 =>
             let aliasStr := mdAlias md.length
             let matched := ']' :: '(' :: (inside ++ [')'])
             let r := shieldMdAux fuel rest2 (md ++ [(aliasStr, ⟨matched, []⟩)])
             (aliasStr ++ r.1, r.2)
         | _ =>
             let r := shieldMdAux fuel ('(' :: rest) md
             (']' :: r.1, r.2))
    | c :: rest =>
        let r := shieldMdAux fuel rest md
        (c :: r.1, r.2)
    | [] => ([], md)

/-- Shield all markdown link tails of a text (fresh private map). -/
def shieldMd (text : Str) : Str × TokenStore := shieldMdAux (text.length + 1) text []

/-- `autolinkUrls`: when markdown is enabled, temporarily replace markdown link
tails by private placeholders; run the external link detector, registering an
`MM_LINK` token per match; then immediately resolve the private placeholders
back to their original literal text.  The private map never reaches the shared
store. -/
def autolinkUrls (detect : Str → List Seg) (markdown : Bool) (text : Str)
    (tokens : TokenStore) : Str × TokenStore :=
  let sh := if markdown then shieldMd text else (text, [])
  let linked := autolinkerLink (detect sh.1) tokens
  let output := if markdown then replaceTokens linked.1 sh.2 else linked.1
  (output, linked.2)

example :
    shieldMd (lit "[text](http://example.com)") =
      (lit "[textMM_MARKDOWNLINK0",
       [(lit "MM_MARKDOWNLINK0", ⟨lit "](http://example.com)", []⟩)]) := by decide

example :
    autolinkUrls noLinkDetect true (lit "[text](http://example.com)") [] =
      (lit "[text](http://example.com)", []) := by decide

/-! ### At-mention tokenizer (`autolinkAtMentions`) -/

/-- The character class `[a-z0-9.\-_]` under the `i` flag (also used, with the
explicit `a-zA-Z` range, by the hashtag regex). -/
def mentionClassChar (c : Char) : Bool := c.isAlphanum || c = '.' || c = '-' || c = '_'

/-- Lower-case a string (JavaScript `toLowerCase`, ASCII range). -/
def toLowerStr (s : Str) : Str := s.map Char.toLower

/-- Greedy match of `([a-z0-9.\-_]*[a-z0-9])` with the `i` flag at the head of
`s`: the longest run of class characters, backtracked so that the match ends in
a letter or digit.  Returns the captured username and the rest of the input. -/
def matchUsername (s : Str) : Option (Str × Str) :=
  let run := s.takeWhile mentionClassChar
  let user := (run.reverse.dropWhile (fun c => !c.isAlphanum)).reverse
  if user.isEmpty then none else some (user, s.drop user.length)

/-- One attempted match of `/(^|\s)(@([a-z0-9.\-_]*[a-z0-9]))/gi` at the current
position (`atStart` means position 0, where the `^` alternative applies):
returns `(prefix, mention, username, rest)` on success, mirroring the capture
groups. -/
def tryAtMatch (atStart : Bool) (s : Str) : Option (Str × Str × Str × Str) :=
  match s with
  | '@' :: rest =>
      if atStart then
        match matchUsername rest with
        | some (user, rest1) => some ([], '@' :: user, user, rest1)
        | none => none
      else none
  | c :: '@' :: rest =>
      if isSpaceChar c then
        match matchUsername rest with
        | some (user, rest1) => some ([c], '@' :: user, user, rest1)
        | none => none
      else none
  | _ => none

/-- Modelled from the spec: `Constants.SPECIAL_MENTIONS`, the fixed set of
special reserved mention keywords (`constants.jsx` is not among the source
files; the spec describes "a fixed set of special reserved mention
keywords"). -/
def SPECIAL_MENTIONS : List Str := [lit "all", lit "channel"]

/-- The anchor value registered for an accepted at-mention. -/
def mentionValue (lower mention : Str) : Str :=
  lit "<a class='mention-link' href='#' data-mention='" ++ lower ++ lit "'>" ++
    mention ++ lit "</a>"

/-- The global-replace scan of `autolinkAtMentions`: at each position try the
mention regex; an accepted candidate (special keyword or resolvable user) is
replaced by a fresh `MM_ATMENTION` alias (the boundary prefix stays outside the
alias), a rejected candidate is left as the full matched literal text.
`profile` is the external user-directory lookup (`UserStore.getProfileByUsername`
returning a profile or nothing). -/
def scanAtMentionsAux (profile : Str → Bool) :
    Nat → Bool → Str → TokenStore → Str × TokenStore
  | 0, _, s, tokens => (s, tokens)
  | fuel + 1, atStart, s, tokens =>
    match tryAtMatch atStart s with
    | some (pre, mention, user, rest) =>
        let lower := toLowerStr user
        if SPECIAL_MENTIONS.contains lower || profile lower then
          let aliasStr := atMentionPfx ++ natDigits tokens.length
          let tokens1 := mapSet tokens aliasStr ⟨mentionValue lower mention, mention⟩
          let r := scanAtMentionsAux profile fuel false rest tokens1
          (pre ++ aliasStr ++ r.1, r.2)
        else
          let r := scanAtMentionsAux profile fuel false rest tokens
          (pre ++ mention ++ r.1, r.2)
    | none =>
      match s with
      | [] => ([], tokens)
      | c :: rest =>
          let r := scanAtMentionsAux profile fuel false rest tokens
          (c :: r.1, r.2)

/-- `autolinkAtMentions`. -/
def autolinkAtMentions (profile : Str → Bool) (text : Str) (tokens : TokenStore) :
    Str × TokenStore :=
  scanAtMentionsAux profile (text.length + 1) true text tokens

example :
    autolinkAtMentions (fun _ => false) (lit "hello @nosuchuser") [] =
      (lit "hello @nosuchuser", []) := by decide

example :
    autolinkAtMentions (fun u => u = lit "bob") (lit "hi @Bob!") [] =
      (lit "hi MM_ATMENTION0!",
       [(lit "MM_ATMENTION0",
         ⟨lit "<a class='mention-link' href='#' data-mention='bob'>@Bob</a>",
          lit "@Bob"⟩)]) := by decide

/-! ### Hashtag tokenizer (`autolinkHashtags`) -/

/-- The wrap phase shared by the hashtag, search-term and self-mention passes:
iterate over the existing tokens in insertion order; for each token satisfying
`pred`, create a wrap token in a pending map (its index is the committed store
size plus the pending map size) and replace the first occurrence of the old
alias in the text by the new alias.  Returns the pending map and the rewritten
text. -/
def wrapExistingAux (pred : Token → Bool) (mk : Str → Token → Token) (pfx : Str)
    (committed : Nat) :
    List (Str × Token) → TokenStore → Str → TokenStore × Str
  | [], newToks, out => (newToks, out)
  | (aliasStr, tok) :: rest, newToks, out =>
    if pred tok then
      let newAlias := pfx ++ natDigits (committed + newToks.length)
      wrapExistingAux pred mk pfx committed rest
        (newToks ++ [(newAlias, mk aliasStr tok)])
        (replaceFirst out aliasStr newAlias)
    else wrapExistingAux pred mk pfx committed rest newToks out

/-- The merge after the wrap phase: `tokens.set(newToken[0], newToken[1])` for
every pending entry, in order. -/
def mergeNewTokens (tokens newToks : TokenStore) : TokenStore :=
  newToks.foldl (fun m e => mapSet m e.1 e.2) tokens

/-- Wrap phase entry: run `wrapExistingAux` over the whole store, then merge
the pending map into the store (`tokens.set` per entry, in order). -/
def wrapExisting (pred : Token → Bool) (mk : Str → Token → Token) (pfx : Str)
    (text : Str) (tokens : TokenStore) : Str × TokenStore :=
  let r := wrapExistingAux pred mk pfx tokens.length tokens [] text
  (r.2, mergeNewTokens tokens r.1)

/-- The anchor value registered for a hashtag. -/
def hashtagValue (tag : Str) : Str :=
  lit "<a class='mention-link' href='#' data-hashtag='" ++ tag ++ lit "'>" ++
    tag ++ lit "</a>"

/-- Backtracking for the trailing `\b` of the hashtag regex: the longest
`m ≤ run.length`, `m ≥ 1`, such that the word-boundary test holds after
`run.take m` (where `rest` follows the full run).  `none` when no length
works. -/
def btagLen (run rest : Str) : Nat → Option Nat
  | 0 => none
  | m + 1 =>
      let lastc := run.get? m
      let nextc := if m + 1 < run.length then run.get? (m + 1) else rest.head?
      if isBoundary lastc nextc then some (m + 1) else btagLen run rest m

/-- Match `#[a-zA-Z0-9.\-_]+\b` given the input after the `#`: greedy class run,
then backtrack for the boundary.  Returns the tag (without `#`) and the rest. -/
def hashAt (rest0 : Str) : Option (Str × Str) :=
  let run := rest0.takeWhile mentionClassChar
  if run.isEmpty then none
  else
    match btagLen run (rest0.drop run.length) run.length with
    | some m => some (run.take m, rest0.drop m)
    | none => none

/-- One attempted match of `/(^|\W)(#[a-zA-Z0-9.\-_]+)\b/g` at the current
position: returns `(prefix, hashtag, rest)`.  The `^` alternative applies only
at position 0; the `\W` alternative consumes one non-word character. -/
def tryHashtagMatch (atStart : Bool) (s : Str) : Option (Str × Str × Str) :=
  (if atStart then
     match s with
     | '#' :: rest0 =>
         match hashAt rest0 with
         | some (tag, rest) => some ([], '#' :: tag, rest)
         | none => none
     | _ => none
   else none) <|>
  (match s with
   | c :: '#' :: rest0 =>
       if !isWordChar c then
         match hashAt rest0 with
         | some (tag, rest) => some ([c], '#' :: tag, rest)
         | none => none
       else none
   | _ => none)

/-- The global-replace scan of phase (b) of `autolinkHashtags`: each matched
hashtag is replaced by a fresh `MM_HASHTAG` alias. -/
def scanHashtagsAux : Nat → Bool → Str → TokenStore → Str × TokenStore
  | 0, _, s, tokens => (s, tokens)
  | fuel + 1, atStart, s, tokens =>
    match tryHashtagMatch atStart s with
    | some (pre, tag, rest) =>
        let aliasStr := hashtagPfx ++ natDigits tokens.length
        let tokens1 := mapSet tokens aliasStr ⟨hashtagValue tag, tag⟩
        let r := scanHashtagsAux fuel false rest tokens1
        (pre ++ aliasStr ++ r.1, r.2)
    | none =>
      match s with
      | [] => ([], tokens)
      | c :: rest =>
          let r := scanHashtagsAux fuel false rest tokens
          (c :: r.1, r.2)

/-- `autolinkHashtags`: phase (a) wraps every existing token whose
`originalText` starts with `#` in a new hashtag token (the new value is built
from the `originalText`, and the new alias replaces the old one in the text);
phase (b) scans the remaining text for hashtags. -/
def autolinkHashtags (text : Str) (tokens : TokenStore) : Str × TokenStore :=
  let w := wrapExisting (fun tok => (lit "#").isPrefixOf tok.originalText)
    (fun _ tok => ⟨hashtagValue tok.originalText, tok.originalText⟩) hashtagPfx
    text tokens
  scanHashtagsAux (w.1.length + 1) true w.1 w.2

example :
    autolinkHashtags (lit "see #general") [] =
      (lit "see MM_HASHTAG0",
       [(lit "MM_HASHTAG0",
         ⟨lit "<a class='mention-link' href='#' data-hashtag='#general'>#general</a>",
          lit "#general"⟩)]) := by decide

example : (autolinkHashtags (lit "#abc.") []).1 = lit "MM_HASHTAG0." := by decide

/-! ### Search-term and self-mention highlighters

Phase (b) of both passes interpolates a caller-supplied string (a mention key
or the search term) into the regex `(^|\W)(<key>)\b` without escaping it, so
the key is matched as a regex pattern, not as a literal.  The model covers the
fragment of such patterns built from regex-literal characters
(`regexLiteralChar`) and the `.` wildcard: `.` matches any character except a
line terminator, and a regex-literal character matches itself up to case (the
`i` flag).  Keys containing any other metacharacter — `*`, `+`, `?`, `|`,
brackets, braces, anchors or a backslash, for which the source's
`new RegExp(...)` applies quantifier, alternation, group or escape semantics,
or throws a SyntaxError on an invalid pattern — are outside the modelled
fragment, and the theorems about matching behaviour hypothesise membership in
the fragment rather than relying on the model there. -/

/-- A character the unescaped `RegExp` interpolation treats as a literal: not
one of the JavaScript regex metacharacters `\ ^ $ . * + ? ( ) [ ] { } |`.  A
key made only of such characters is matched by the source's regex exactly as
written, case-insensitively. -/
def regexLiteralChar (c : Char) : Bool :=
  !(c = '\\' || c = '^' || c = '$' || c = '.' || c = '*' || c = '+' || c = '?' ||
    c = '(' || c = ')' || c = '[' || c = ']' || c = '\x7b' || c = '\x7d' || c = '|')

/-- Case-insensitive match of the interpolated key at the head of `s`, on the
modelled fragment (see the section comment): `.` in the key matches any
character except a line terminator, any other covered character matches itself
up to case.  Returns the matched text and the rest. -/
def matchKey : Str → Str → Option (Str × Str)
  | [], s => some ([], s)
  | _ :: _, [] => none
  | k :: ks, c :: s =>
      if (k = '.' && c ≠ '\n' && c ≠ '\r') || (k ≠ '.' && k.toLower = c.toLower) then
        match matchKey ks s with
        | some (m, rest) => some (c :: m, rest)
        | none => none
      else none

/-- One attempted match of `(^|\W)(<key>)\b` (flags `gi`) at the current
position: returns `(prefix, matched word, rest)`. -/
def tryKeyMatch (key : Str) (atStart : Bool) (s : Str) : Option (Str × Str × Str) :=
  (if atStart then
     match matchKey key s with
     | some (m, rest) =>
         if isBoundary m.getLast? rest.head? then some ([], m, rest) else none
     | none => none
   else none) <|>
  (match s with
   | c :: s1 =>
       if !isWordChar c then
         match matchKey key s1 with
         | some (m, rest) =>
             let prevc := match m.getLast? with
               | some c2 => some c2
               | none => some c
             if isBoundary prevc rest.head? then some ([c], m, rest) else none
         | none => none
       else none
   | [] => none)

/-- The global-replace scan of phase (b) of the search-term and self-mention
passes: each match of the interpolated key is replaced by a fresh alias whose
token wraps the matched word in a highlight span (`mkVal`).  A zero-length
match (empty key) inserts the alias and the scan advances one character, as a
JavaScript global replace does. -/
def scanKeyAux (pfx : Str) (mkVal : Str → Str) (key : Str) :
    Nat → Bool → Str → TokenStore → Str × TokenStore
  | 0, _, s, tokens => (s, tokens)
  | fuel + 1, atStart, s, tokens =>
    match tryKeyMatch key atStart s with
    | some (pre, word, rest) =>
        let aliasStr := pfx ++ natDigits tokens.length
        let tokens1 := mapSet tokens aliasStr ⟨mkVal word, word⟩
        if (pre ++ word).isEmpty then
          match rest with
          | [] => (aliasStr, tokens1)
          | c :: rest1 =>
              let r := scanKeyAux pfx mkVal key fuel false rest1 tokens1
              (aliasStr ++ (c :: r.1), r.2)
        else
          let r := scanKeyAux pfx mkVal key fuel false rest tokens1
          (pre ++ aliasStr ++ r.1, r.2)
    | none =>
      match s with
      | [] => ([], tokens)
      | c :: rest =>
          let r := scanKeyAux pfx mkVal key fuel false rest tokens
          (c :: r.1, r.2)

/-- The search-highlight span value. -/
def searchSpanValue (inner : Str) : Str :=
  lit "<span class='search-highlight'>" ++ inner ++ lit "</span>"

/-- The mention-highlight span value. -/
def mentionSpanValue (inner : Str) : Str :=
  lit "<span class='mention-highlight'>" ++ inner ++ lit "</span>"

/-- `highlightSearchTerm`: phase (a) wraps every existing token whose
`originalText` equals the search term exactly (the wrap value embeds the old
alias); phase (b) scans the text for the term as an interpolated
case-insensitive whole-word regex. -/
def highlightSearchTerm (searchTerm : Str) (text : Str) (tokens : TokenStore) :
    Str × TokenStore :=
  let w := wrapExisting (fun tok => tok.originalText = searchTerm)
    (fun aliasStr tok => ⟨searchSpanValue aliasStr, tok.originalText⟩) searchTermPfx
    text tokens
  scanKeyAux searchTermPfx searchSpanValue searchTerm (w.1.length + 1) true w.1 w.2

/-- One phase (b) scan of `highlightCurrentMentions`: a full global replace of
the interpolated regex for one mention key over the current text. -/
def selfMentionScanStep (acc : Str × TokenStore) (key : Str) : Str × TokenStore :=
  scanKeyAux selfMentionPfx mentionSpanValue key (acc.1.length + 1) true acc.1 acc.2

/-- `highlightCurrentMentions`: phase (a) wraps every existing token whose
`originalText` is one of the viewer's mention keys (the wrap value embeds the
old alias); phase (b) runs one interpolated-regex scan per mention key over the
current text.  `mentionKeys` is the external
`UserStore.getCurrentMentionKeys()`. -/
def highlightCurrentMentions (mentionKeys : List Str) (text : Str)
    (tokens : TokenStore) : Str × TokenStore :=
  let w := wrapExisting (fun tok => mentionKeys.contains tok.originalText)
    (fun aliasStr tok => ⟨mentionSpanValue aliasStr, tok.originalText⟩) selfMentionPfx
    text tokens
  mentionKeys.foldl selfMentionScanStep w

/-! ### `formatText` -/

/-- The recognized option fields; `none` models a field absent from the
options object. -/
structure FormatOptions where
  searchTerm : Option Str := none
  mentionHighlight : Option Bool := none
  singleline : Option Bool := none
  markdown : Option Bool := none
deriving DecidableEq

/-- The external collaborators of the pipeline: the Autolinker match engine,
the user directory lookup, the viewer's mention keys, and the markdown
renderer (`marked` with the configured renderer and `sanitize: true`). -/
structure Env where
  detect : Str → List Seg
  profile : Str → Bool
  mentionKeys : List Str
  marked : Str → Str

/-- Everything a `formatText` call produces: the returned string, the shared
token store at the end of the call, and the options object as the call leaves
it (the source mutates its `options` argument in place; the mutation is
modelled by returning the final object). -/
structure FormatResult where
  output : Str
  tokens : TokenStore
  options : FormatOptions
deriving DecidableEq

/-- `formatText`: defaulting of `options.markdown`, optional HTML escaping,
the five tokenizing passes, markdown rendering, token resolution and optional
newline collapsing, in source order. -/
def formatTextRun (env : Env) (text : Str) (options : FormatOptions) : FormatResult :=
  let options := if options.markdown = none then
    { options with markdown := some true } else options
  let markdown := options.markdown.getD true
  let output := if !markdown then sanitizeHtml text else text
  let r1 := autolinkUrls env.detect markdown output []
  let r2 := autolinkAtMentions env.profile r1.1 r1.2
  let r3 := autolinkHashtags r2.1 r2.2
  let r4 := match options.searchTerm with
    | some st => if st.isEmpty then r3 else highlightSearchTerm st r3.1 r3.2
    | none => r3
  let r5 := if options.mentionHighlight.getD true then
    highlightCurrentMentions env.mentionKeys r4.1 r4.2 else r4
  let out6 := if markdown then env.marked r5.1 else r5.1
  let out7 := replaceTokens out6 r5.2
  let out8 := if options.singleline.getD false then replaceNewlines out7 else out7
  ⟨out8, r5.2, options⟩

/-- The value `formatText` returns (the formatted string), together with the
caller-visible state of the options object after the call. -/
def formatText (env : Env) (text : Str) (options : FormatOptions) :
    Str × FormatOptions :=
  let r := formatTextRun env text options
  (r.output, r.options)

/-- An environment with no link matches, no users, no mention keys, and an
identity markdown renderer: the collaborators contribute nothing. -/
def plainEnv : Env :=
  ⟨noLinkDetect, fun _ => false, [], fun s => s⟩

example :
    (formatText { plainEnv with mentionKeys := [lit "#general"] }
      (lit "see #general") { markdown := some false }).1 =
    lit "see <span class='mention-highlight'><a class='mention-link' href='#' data-hashtag='#general'>#general</a></span>" := by
  decide

-- The mention username backtracks so the match ends in a letter or digit: the
-- trailing dot stays outside the token.
example :
    (formatText { plainEnv with profile := fun u => u = lit "abc" } (lit "hi @abc.")
      { markdown := some false }).1 =
    lit "hi <a class='mention-link' href='#' data-mention='abc'>@abc</a>." := by decide

-- An @ not at the start and not after whitespace is not a mention candidate.
example :
    (formatText { plainEnv with profile := fun u => u = lit "bob" } (lit "x@bob")
      { markdown := some false }).1 = lit "x@bob" := by decide

-- Special reserved mentions are accepted case-insensitively with no directory.
example :
    (formatText plainEnv (lit "go @ALL") { markdown := some false }).1 =
    lit "go <a class='mention-link' href='#' data-mention='all'>@ALL</a>" := by decide

-- A hashtag after a non-word character (the `\W` alternative of the prefix).
example :
    (formatText plainEnv (lit "(#a)") { markdown := some false }).1 =
    lit "(<a class='mention-link' href='#' data-hashtag='#a'>#a</a>)" := by decide

-- The whole-word `\b` rejects a mention key occurring inside a longer word.
example :
    (formatText { plainEnv with mentionKeys := [lit "general"] } (lit "generally")
      { markdown := some false }).1 = lit "generally" := by decide

-- Mention keys match case-insensitively; the wrapped text keeps its case.
example :
    (formatText { plainEnv with mentionKeys := [lit "General"] } (lit "hi general")
      { markdown := some false }).1 =
    lit "hi <span class='mention-highlight'>general</span>" := by decide

-- singleline: true replaces each newline by a space.
example :
    (formatText plainEnv (lit "a\nb") { markdown := some false, singleline := some true }).1 =
    lit "a b" := by decide

-- A search term equal to a mention key is wrapped twice (nested spans), and
-- both wrap phases re-wrap the hashtag token via its alias.
set_option maxHeartbeats 1000000 in
set_option maxRecDepth 4000 in
example :
    (formatTextRun { plainEnv with mentionKeys := [lit "#general"] }
      (lit "see #general")
      { markdown := some false, searchTerm := some (lit "#general") }).output =
    lit "see <span class='mention-highlight'><span class='search-highlight'><a class='mention-link' href='#' data-hashtag='#general'>#general</a></span></span>" := by
  decide

/-! ### Predicates about the store used by the statements -/

/-- The keys (aliases) of a store, in insertion order. -/
def keysOf (m : TokenStore) : List Str := m.map (fun e => e.1)

/-- A canonically built store: the `i`-th key is one of the five category
prefixes followed by the decimal representation of `i` (the index each
registration derives from the store size at creation time). -/
def CanonStore (m : TokenStore) : Prop :=
  ∀ i (h : i < m.length), ∃ p ∈ storePfxs, (m[i]).1 = p ++ natDigits i

/-- Decimal value of a digit character. -/
def digitVal (c : Char) : Nat := c.toNat - 48

/-- Decimal value of a digit string (left fold). -/
def digitsVal (s : Str) : Nat := s.foldl (fun a c => a * 10 + digitVal c) 0

/-! ### Literal key matching, modelled from the spec

`matchKeyLit` is modelled from the spec's words, for comparison with the
source-derived `matchKey`: spec 4.7 says the self-mention highlighter "treats
every key identically as a literal to match", i.e. a key would match exactly
its own characters, case-insensitively, with no wildcard. -/

/-- Modelled from the spec: case-insensitive *literal* match of a mention key
at the head of `s` (what spec 4.7's "a literal to match" prescribes). -/
def matchKeyLit : Str → Str → Option (Str × Str)
  | [], s => some ([], s)
  | _ :: _, [] => none
  | k :: ks, c :: s =>
      if k.toLower = c.toLower then
        match matchKeyLit ks s with
        | some (m, rest) => some (c :: m, rest)
        | none => none
      else none

/-- Modelled from the spec: `tryKeyMatch` with the literal matcher. -/
def tryKeyMatchLit (key : Str) (atStart : Bool) (s : Str) : Option (Str × Str × Str) :=
  (if atStart then
     match matchKeyLit key s with
     | some (m, rest) =>
         if isBoundary m.getLast? rest.head? then some ([], m, rest) else none
     | none => none
   else none) <|>
  (match s with
   | c :: s1 =>
       if !isWordChar c then
         match matchKeyLit key s1 with
         | some (m, rest) =>
             let prevc := match m.getLast? with
               | some c2 => some c2
               | none => some c
             if isBoundary prevc rest.head? then some ([c], m, rest) else none
         | none => none
       else none
   | [] => none)

/-- Modelled from the spec: the phase (b) scan with the literal matcher. -/
def scanKeyLitAux (pfx : Str) (mkVal : Str → Str) (key : Str) :
    Nat → Bool → Str → TokenStore → Str × TokenStore
  | 0, _, s, tokens => (s, tokens)
  | fuel + 1, atStart, s, tokens =>
    match tryKeyMatchLit key atStart s with
    | some (pre, word, rest) =>
        let aliasStr := pfx ++ natDigits tokens.length
        let tokens1 := mapSet tokens aliasStr ⟨mkVal word, word⟩
        if (pre ++ word).isEmpty then
          match rest with
          | [] => (aliasStr, tokens1)
          | c :: rest1 =>
              let r := scanKeyLitAux pfx mkVal key fuel false rest1 tokens1
              (aliasStr ++ (c :: r.1), r.2)
        else
          let r := scanKeyLitAux pfx mkVal key fuel false rest tokens1
          (pre ++ aliasStr ++ r.1, r.2)
    | none =>
      match s with
      | [] => ([], tokens)
      | c :: rest =>
          let r := scanKeyLitAux pfx mkVal key fuel false rest tokens
          (c :: r.1, r.2)

/-- A concrete detector for the input `"visit example.com now"`: the Autolinker
engine matches the bare domain `example.com` (used to instantiate the link
tokenizer's collaborator in witnesses). -/
def c6detect : Str → List Seg := fun t =>
  if t = lit "visit example.com now" then
    [Seg.plain (lit "visit "), Seg.link (lit "example.com"), Seg.plain (lit " now")]
  else [Seg.plain t]

/-! ## Lemmas: decimal representations and alias freshness -/

theorem digitVal_digitChar {n : Nat} (h : n < 10) : digitVal (digitChar n) = n := by
  interval_cases n <;> decide

theorem digitsVal_append (s : Str) (c : Char) :
    digitsVal (s ++ [c]) = 10 * digitsVal s + digitVal c := by
  simp [digitsVal, List.foldl_append, Nat.mul_comm]

theorem digitsVal_natDigitsAux :
    ∀ fuel n, n < 10 ^ fuel → digitsVal (natDigitsAux fuel n) = n := by
  intro fuel
  induction fuel with
  | zero =>
      intro n h
      simp only [pow_zero, Nat.lt_one_iff] at h
      simp [natDigitsAux, digitsVal, h]
  | succ fuel ih =>
      intro n h
      unfold natDigitsAux
      by_cases h10 : n < 10
      · simp only [h10, if_true, digitsVal, List.foldl]
        simp [digitVal_digitChar h10]
      · have hdiv : n / 10 < 10 ^ fuel := by
          have : n < 10 ^ fuel * 10 := by
            have := h
            rw [pow_succ] at this
            exact this
          exact Nat.div_lt_of_lt_mul (by omega)
        have hmod : n % 10 < 10 := Nat.mod_lt _ (by norm_num)
        simp only [h10, if_false, digitsVal_append, ih (n / 10) hdiv,
          digitVal_digitChar hmod]
        omega

theorem digitsVal_natDigits (n : Nat) : digitsVal (natDigits n) = n := by
  apply digitsVal_natDigitsAux
  calc n < 10 ^ n := Nat.lt_pow_self (by norm_num) n
    _ ≤ 10 ^ (n + 1) := Nat.pow_le_pow_right (by norm_num) (Nat.le_succ n)

theorem natDigits_inj {m n : Nat} (h : natDigits m = natDigits n) : m = n := by
  have := congrArg digitsVal h
  simpa [digitsVal_natDigits] using this

/-- No category prefix is a (weak) list-prefix of a different one. -/
theorem storePfxs_not_prefix :
    ∀ p ∈ storePfxs, ∀ q ∈ storePfxs, p ≠ q → ¬ p <+: q := by decide

/-- Two canonical aliases coincide only when both the category prefix and the
index coincide. -/
theorem alias_eq {p q : Str} (hp : p ∈ storePfxs) (hq : q ∈ storePfxs) {m n : Nat}
    (h : p ++ natDigits m = q ++ natDigits n) : p = q ∧ m = n := by
  have hpq : p = q := by
    by_contra hne
    rcases Nat.le_total p.length q.length with hle | hle
    · exact storePfxs_not_prefix p hp q hq hne
        (List.prefix_of_prefix_length_le (h ▸ List.prefix_append p (natDigits m))
          (List.prefix_append q (natDigits n)) hle)
    · exact storePfxs_not_prefix q hq p hp (Ne.symm hne)
        (List.prefix_of_prefix_length_le (h ▸ List.prefix_append q (natDigits n))
          (List.prefix_append p (natDigits m)) hle)
  subst hpq
  exact ⟨rfl, natDigits_inj (List.append_cancel_left h)⟩

/-! ## Lemmas: the canonical-store invariant -/

theorem canon_nil : CanonStore [] := by
  intro i h
  simp at h

/-- In a canonical store the alias the next registration would use is not yet
a key. -/
theorem canon_fresh {m : TokenStore} (hm : CanonStore m) {p : Str}
    (hp : p ∈ storePfxs) : (p ++ natDigits m.length) ∉ keysOf m := by
  intro hmem
  obtain ⟨e, he, hek⟩ := List.mem_map.mp hmem
  obtain ⟨i, hi, hie⟩ := List.mem_iff_getElem.mp he
  obtain ⟨q, hq, hkey⟩ := hm i hi
  rw [hie, hek] at hkey
  have := (alias_eq hp hq hkey).2
  omega

/-- `Map.set` with a key that is not present appends. -/
theorem mapSet_fresh {m : TokenStore} {k : Str} (hk : k ∉ keysOf m) (v : Token) :
    mapSet m k v = m ++ [(k, v)] := by
  have hany : ¬ (m.any (fun e => e.1 = k) = true) := by
    simp only [List.any_eq_true, decide_eq_true_eq]
    rintro ⟨e, he, hek⟩
    exact hk (List.mem_map.mpr ⟨e, he, hek⟩)
  simp [mapSet, hany]

/-- Appending the canonical next alias preserves canonicity. -/
theorem canon_append {m : TokenStore} (hm : CanonStore m) {p : Str}
    (hp : p ∈ storePfxs) (v : Token) :
    CanonStore (m ++ [(p ++ natDigits m.length, v)]) := by
  intro i h
  rw [List.length_append, List.length_singleton] at h
  by_cases hi : i < m.length
  · obtain ⟨q, hq, he⟩ := hm i hi
    exact ⟨q, hq, by rw [List.getElem_append_left hi]; exact he⟩
  · have hieq : i = m.length := by omega
    subst hieq
    refine ⟨p, hp, ?_⟩
    rw [List.getElem_append_right (Nat.le_refl _)]
    simp

/-- A registration (`Map.set` of the canonical next alias) preserves
canonicity and extends the key list. -/
theorem canon_register {m : TokenStore} (hm : CanonStore m) {p : Str}
    (hp : p ∈ storePfxs) (v : Token) :
    CanonStore (mapSet m (p ++ natDigits m.length) v) ∧
      keysOf m <+: keysOf (mapSet m (p ++ natDigits m.length) v) := by
  rw [mapSet_fresh (canon_fresh hm hp) v]
  refine ⟨canon_append hm hp v, ?_⟩
  simp [keysOf]

/-- The keys of a canonical store are pairwise distinct. -/
theorem canon_nodup {m : TokenStore} (hm : CanonStore m) : (keysOf m).Nodup := by
  rw [List.nodup_iff_injective_getElem]
  intro i j hij
  have hilt : (i : Nat) < m.length := by
    have := i.isLt
    simpa [keysOf] using this
  have hjlt : (j : Nat) < m.length := by
    have := j.isLt
    simpa [keysOf] using this
  obtain ⟨p, hp, hpe⟩ := hm i hilt
  obtain ⟨q, hq, hqe⟩ := hm j hjlt
  have hkey : (m[(i : Nat)]).1 = (m[(j : Nat)]).1 := by
    simpa [keysOf, List.getElem_map] using hij
  have : (i : Nat) = (j : Nat) := by
    have h := hpe ▸ hqe ▸ hkey
    exact (alias_eq hp hq h).2
  exact Fin.ext this

theorem keysOf_append (a b : TokenStore) : keysOf (a ++ b) = keysOf a ++ keysOf b :=
  List.map_append _ a b

/-- Merging a pending map whose keys are all fresh (the combined store has
pairwise-distinct keys) is plain concatenation. -/
theorem mergeNewTokens_of_nodup :
    ∀ (newToks m : TokenStore), (keysOf (m ++ newToks)).Nodup →
      mergeNewTokens m newToks = m ++ newToks := by
  intro newToks
  induction newToks with
  | nil => intro m _; simp [mergeNewTokens]
  | cons e rest ih =>
      intro m hnd
      have hk : e.1 ∉ keysOf m := by
        intro hmem
        rw [keysOf_append] at hnd
        obtain ⟨-, -, hdisj⟩ := List.nodup_append.mp hnd
        exact hdisj hmem (List.mem_cons_self _ _)
      have hstep : mapSet m e.1 e.2 = m ++ [e] := by
        rw [mapSet_fresh hk]
      have hnd2 : (keysOf ((m ++ [e]) ++ rest)).Nodup := by
        simpa [List.append_assoc] using hnd
      have hrec := ih (m ++ [e]) hnd2
      simp only [mergeNewTokens, List.foldl_cons] at hrec ⊢
      rw [hstep, hrec]
      simp

/-- One-step unfolding of the at-mention scan. -/
theorem scanAtMentionsAux_succ (profile : Str → Bool) (fuel : Nat) (atStart : Bool)
    (s : Str) (m : TokenStore) :
    scanAtMentionsAux profile (fuel + 1) atStart s m =
      match tryAtMatch atStart s with
      | some (pre, mention, user, rest) =>
          let lower := toLowerStr user
          if SPECIAL_MENTIONS.contains lower || profile lower then
            let aliasStr := atMentionPfx ++ natDigits m.length
            let tokens1 := mapSet m aliasStr ⟨mentionValue lower mention, mention⟩
            let r := scanAtMentionsAux profile fuel false rest tokens1
            (pre ++ aliasStr ++ r.1, r.2)
          else
            let r := scanAtMentionsAux profile fuel false rest m
            (pre ++ mention ++ r.1, r.2)
      | none =>
        match s with
        | [] => ([], m)
        | c :: rest =>
            let r := scanAtMentionsAux profile fuel false rest m
            (c :: r.1, r.2) := rfl

/-- The at-mention scan preserves canonicity and only extends the key list. -/
theorem scanAtMentionsAux_canon (profile : Str → Bool) :
    ∀ fuel atStart s m, CanonStore m →
      CanonStore (scanAtMentionsAux profile fuel atStart s m).2 ∧
        keysOf m <+: keysOf (scanAtMentionsAux profile fuel atStart s m).2 := by
  intro fuel
  induction fuel with
  | zero => intro atStart s m hm; exact ⟨hm, List.prefix_refl _⟩
  | succ fuel ih =>
      intro atStart s m hm
      rw [scanAtMentionsAux_succ]
      rcases htry : tryAtMatch atStart s with - | ⟨pre, mention, user, rest⟩
      · simp only [htry]
        rcases s with - | ⟨c, rest⟩
        · exact ⟨hm, List.prefix_refl _⟩
        · simpa using ih false rest m hm
      · simp only [htry]
        by_cases hc : (SPECIAL_MENTIONS.contains (toLowerStr user) ||
            profile (toLowerStr user)) = true
        · simp only [hc, if_true]
          obtain ⟨hcanon, hpfx⟩ := canon_register hm
            (show atMentionPfx ∈ storePfxs by simp [storePfxs])
            ⟨mentionValue (toLowerStr user) mention, mention⟩
          obtain ⟨h1, h2⟩ := ih false rest _ hcanon
          exact ⟨h1, hpfx.trans h2⟩
        · simp only [hc, if_false]
          simpa using ih false rest m hm

/-- One-step unfolding of the hashtag scan. -/
theorem scanHashtagsAux_succ (fuel : Nat) (atStart : Bool) (s : Str) (m : TokenStore) :
    scanHashtagsAux (fuel + 1) atStart s m =
      match tryHashtagMatch atStart s with
      | some (pre, tag, rest) =>
          let aliasStr := hashtagPfx ++ natDigits m.length
          let tokens1 := mapSet m aliasStr ⟨hashtagValue tag, tag⟩
          let r := scanHashtagsAux fuel false rest tokens1
          (pre ++ aliasStr ++ r.1, r.2)
      | none =>
        match s with
        | [] => ([], m)
        | c :: rest =>
            let r := scanHashtagsAux fuel false rest m
            (c :: r.1, r.2) := rfl

/-- The hashtag scan preserves canonicity and only extends the key list. -/
theorem scanHashtagsAux_canon :
    ∀ fuel atStart s m, CanonStore m →
      CanonStore (scanHashtagsAux fuel atStart s m).2 ∧
        keysOf m <+: keysOf (scanHashtagsAux fuel atStart s m).2 := by
  intro fuel
  induction fuel with
  | zero => intro atStart s m hm; exact ⟨hm, List.prefix_refl _⟩
  | succ fuel ih =>
      intro atStart s m hm
      rw [scanHashtagsAux_succ]
      rcases htry : tryHashtagMatch atStart s with - | ⟨pre, tag, rest⟩
      · simp only [htry]
        rcases s with - | ⟨c, rest⟩
        · exact ⟨hm, List.prefix_refl _⟩
        · simpa using ih false rest m hm
      · simp only [htry]
        obtain ⟨hcanon, hpfx⟩ := canon_register hm
          (show hashtagPfx ∈ storePfxs by simp [storePfxs])
          ⟨hashtagValue tag, tag⟩
        obtain ⟨h1, h2⟩ := ih false rest _ hcanon
        exact ⟨h1, hpfx.trans h2⟩

/-- One-step unfolding of the key scan. -/
theorem scanKeyAux_succ (pfx : Str) (mkVal : Str → Str) (key : Str) (fuel : Nat)
    (atStart : Bool) (s : Str) (m : TokenStore) :
    scanKeyAux pfx mkVal key (fuel + 1) atStart s m =
      match tryKeyMatch key atStart s with
      | some (pre, word, rest) =>
          let aliasStr := pfx ++ natDigits m.length
          let tokens1 := mapSet m aliasStr ⟨mkVal word, word⟩
          if (pre ++ word).isEmpty then
            match rest with
            | [] => (aliasStr, tokens1)
            | c :: rest1 =>
                let r := scanKeyAux pfx mkVal key fuel false rest1 tokens1
                (aliasStr ++ (c :: r.1), r.2)
          else
            let r := scanKeyAux pfx mkVal key fuel false rest tokens1
            (pre ++ aliasStr ++ r.1, r.2)
      | none =>
        match s with
        | [] => ([], m)
        | c :: rest =>
            let r := scanKeyAux pfx mkVal key fuel false rest m
            (c :: r.1, r.2) := rfl

/-- The key scan preserves canonicity and only extends the key list, whenever
its alias prefix is one of the categories. -/
theorem scanKeyAux_canon {pfx : Str} (hpfx : pfx ∈ storePfxs) (mkVal : Str → Str)
    (key : Str) :
    ∀ fuel atStart s m, CanonStore m →
      CanonStore (scanKeyAux pfx mkVal key fuel atStart s m).2 ∧
        keysOf m <+: keysOf (scanKeyAux pfx mkVal key fuel atStart s m).2 := by
  intro fuel
  induction fuel with
  | zero => intro atStart s m hm; exact ⟨hm, List.prefix_refl _⟩
  | succ fuel ih =>
      intro atStart s m hm
      rw [scanKeyAux_succ]
      rcases htry : tryKeyMatch key atStart s with - | ⟨pre, word, rest⟩
      · simp only [htry]
        rcases s with - | ⟨c, rest⟩
        · exact ⟨hm, List.prefix_refl _⟩
        · simpa using ih false rest m hm
      · simp only [htry]
        obtain ⟨hcanon, hpfx2⟩ := canon_register hm hpfx ⟨mkVal word, word⟩
        by_cases hemp : (pre ++ word).isEmpty = true
        · simp only [hemp, if_true]
          rcases rest with - | ⟨c, rest1⟩
          · exact ⟨hcanon, hpfx2⟩
          · obtain ⟨h1, h2⟩ := ih false rest1 _ hcanon
            exact ⟨h1, hpfx2.trans h2⟩
        · simp only [hemp, if_false]
          obtain ⟨h1, h2⟩ := ih false rest _ hcanon
          exact ⟨h1, hpfx2.trans h2⟩

/-- The wrap phase accumulator step: with `committed` equal to the length of
the original store, the pending map always extends the combined store
canonically. -/
theorem wrapExistingAux_canon (pred : Token → Bool) (mk : Str → Token → Token)
    {pfx : Str} (hpfx : pfx ∈ storePfxs) (toks0 : TokenStore) :
    ∀ iter newToks out, CanonStore (toks0 ++ newToks) →
      CanonStore (toks0 ++ (wrapExistingAux pred mk pfx toks0.length iter newToks out).1) := by
  intro iter
  induction iter with
  | nil => intro newToks out h; exact h
  | cons e rest ih =>
      intro newToks out h
      obtain ⟨a, tok⟩ := e
      rw [wrapExistingAux]
      by_cases hp : pred tok = true
      · simp only [hp, if_true]
        apply ih
        have hlen : toks0.length + newToks.length = (toks0 ++ newToks).length := by
          simp
        rw [hlen, ← List.append_assoc]
        exact canon_append h hpfx _
      · simp only [hp, if_false]
        exact ih newToks out h

/-- The wrap phase (pending creation plus merge) preserves canonicity and only
extends the key list. -/
theorem wrapExisting_canon (pred : Token → Bool) (mk : Str → Token → Token)
    {pfx : Str} (hpfx : pfx ∈ storePfxs) (text : Str) {m : TokenStore}
    (hm : CanonStore m) :
    CanonStore (wrapExisting pred mk pfx text m).2 ∧
      keysOf m <+: keysOf (wrapExisting pred mk pfx text m).2 := by
  have h1 := wrapExistingAux_canon pred mk hpfx m m [] text (by simpa using hm)
  have hmerge :
      mergeNewTokens m (wrapExistingAux pred mk pfx m.length m [] text).1 =
        m ++ (wrapExistingAux pred mk pfx m.length m [] text).1 :=
    mergeNewTokens_of_nodup _ m (canon_nodup h1)
  unfold wrapExisting
  simp only [hmerge]
  exact ⟨h1, by rw [keysOf_append]; exact List.prefix_append _ _⟩

/-- The Autolinker fold preserves canonicity and only extends the key list. -/
theorem autolinkerLink_foldl_canon :
    ∀ (segs : List Seg) (acc : Str × TokenStore), CanonStore acc.2 →
      CanonStore (segs.foldl autolinkerStep acc).2 ∧
        keysOf acc.2 <+: keysOf (segs.foldl autolinkerStep acc).2 := by
  intro segs
  induction segs with
  | nil => intro acc h; exact ⟨h, List.prefix_refl _⟩
  | cons seg rest ih =>
      intro acc h
      rw [List.foldl_cons]
      rcases seg with s | s
      · exact ih _ (by simpa [autolinkerStep] using h)
      · have hreg := canon_register h
          (show linkPfx ∈ storePfxs by simp [storePfxs])
          ⟨linkValue s, s⟩
        obtain ⟨h1, h2⟩ := ih (autolinkerStep acc (Seg.link s))
          (by simpa [autolinkerStep, replaceUrlWithToken] using hreg.1)
        refine ⟨h1, ?_⟩
        refine List.IsPrefix.trans ?_ h2
        simpa [autolinkerStep, replaceUrlWithToken] using hreg.2

/-- `autolinkUrls` preserves canonicity and only extends the key list (the
private markdown-link map never touches the shared store). -/
theorem autolinkUrls_canon (detect : Str → List Seg) (markdown : Bool) (text : Str)
    {m : TokenStore} (hm : CanonStore m) :
    CanonStore (autolinkUrls detect markdown text m).2 ∧
      keysOf m <+: keysOf (autolinkUrls detect markdown text m).2 := by
  unfold autolinkUrls autolinkerLink
  exact autolinkerLink_foldl_canon _ (([], m) : Str × TokenStore) hm

/-- `autolinkAtMentions` preserves canonicity and only extends the key list. -/
theorem autolinkAtMentions_canon (profile : Str → Bool) (text : Str)
    {m : TokenStore} (hm : CanonStore m) :
    CanonStore (autolinkAtMentions profile text m).2 ∧
      keysOf m <+: keysOf (autolinkAtMentions profile text m).2 :=
  scanAtMentionsAux_canon profile _ true text m hm

/-- `autolinkHashtags` preserves canonicity and only extends the key list. -/
theorem autolinkHashtags_canon (text : Str) {m : TokenStore} (hm : CanonStore m) :
    CanonStore (autolinkHashtags text m).2 ∧
      keysOf m <+: keysOf (autolinkHashtags text m).2 := by
  unfold autolinkHashtags
  have hw := wrapExisting_canon (fun tok => (lit "#").isPrefixOf tok.originalText)
    (fun _ tok => ⟨hashtagValue tok.originalText, tok.originalText⟩)
    (show hashtagPfx ∈ storePfxs by simp [storePfxs]) text hm
  obtain ⟨h1, h2⟩ := scanHashtagsAux_canon _ true _ _ hw.1
  exact ⟨h1, hw.2.trans h2⟩

/-- `highlightSearchTerm` preserves canonicity and only extends the key list. -/
theorem highlightSearchTerm_canon (searchTerm text : Str) {m : TokenStore}
    (hm : CanonStore m) :
    CanonStore (highlightSearchTerm searchTerm text m).2 ∧
      keysOf m <+: keysOf (highlightSearchTerm searchTerm text m).2 := by
  unfold highlightSearchTerm
  have hw := wrapExisting_canon (fun tok => tok.originalText = searchTerm)
    (fun aliasStr tok => ⟨searchSpanValue aliasStr, tok.originalText⟩)
    (show searchTermPfx ∈ storePfxs by simp [storePfxs]) text hm
  obtain ⟨h1, h2⟩ := scanKeyAux_canon
    (show searchTermPfx ∈ storePfxs by simp [storePfxs]) searchSpanValue searchTerm
    _ true _ _ hw.1
  exact ⟨h1, hw.2.trans h2⟩

/-- `highlightCurrentMentions` preserves canonicity and only extends the key
list. -/
theorem highlightCurrentMentions_canon (mentionKeys : List Str) (text : Str)
    {m : TokenStore} (hm : CanonStore m) :
    CanonStore (highlightCurrentMentions mentionKeys text m).2 ∧
      keysOf m <+: keysOf (highlightCurrentMentions mentionKeys text m).2 := by
  unfold highlightCurrentMentions
  have hw := wrapExisting_canon (fun tok => mentionKeys.contains tok.originalText)
    (fun aliasStr tok => ⟨mentionSpanValue aliasStr, tok.originalText⟩)
    (show selfMentionPfx ∈ storePfxs by simp [storePfxs]) text hm
  have hfold :
      ∀ (keys : List Str) (acc : Str × TokenStore), CanonStore acc.2 →
        CanonStore (keys.foldl selfMentionScanStep acc).2 ∧
          keysOf acc.2 <+: keysOf (keys.foldl selfMentionScanStep acc).2 := by
    intro keys
    induction keys with
    | nil => intro acc h; exact ⟨h, List.prefix_refl _⟩
    | cons key rest ih =>
        intro acc h
        rw [List.foldl_cons]
        have hstep := scanKeyAux_canon
          (show selfMentionPfx ∈ storePfxs by simp [storePfxs]) mentionSpanValue key
          (acc.1.length + 1) true acc.1 acc.2 h
        obtain ⟨h1, h2⟩ := ih (selfMentionScanStep acc key)
          (by simpa [selfMentionScanStep] using hstep.1)
        refine ⟨h1, List.IsPrefix.trans ?_ h2⟩
        simpa [selfMentionScanStep] using hstep.2
  obtain ⟨h1, h2⟩ := hfold mentionKeys _ hw.1
  exact ⟨h1, hw.2.trans h2⟩

/-- The store at the end of any `formatText` call is canonically built (from
the empty store, every registration appended the next canonical alias). -/
theorem formatTextRun_canon (env : Env) (text : Str) (opts : FormatOptions) :
    CanonStore (formatTextRun env text opts).tokens := by
  unfold formatTextRun
  dsimp only
  set opts1 := if opts.markdown = none then { opts with markdown := some true }
    else opts with hopts1
  set markdown := opts1.markdown.getD true with hmarkdown
  set output := if !markdown then sanitizeHtml text else text with houtput
  set r1 := autolinkUrls env.detect markdown output [] with hr1
  set r2 := autolinkAtMentions env.profile r1.1 r1.2 with hr2
  set r3 := autolinkHashtags r2.1 r2.2 with hr3
  have h1 : CanonStore r1.2 := by
    rw [hr1]; exact (autolinkUrls_canon env.detect markdown output canon_nil).1
  have h2 : CanonStore r2.2 := by
    rw [hr2]; exact (autolinkAtMentions_canon env.profile r1.1 h1).1
  have h3 : CanonStore r3.2 := by
    rw [hr3]; exact (autolinkHashtags_canon r2.1 h2).1
  set r4 := (match opts1.searchTerm with
    | some st => if st.isEmpty then r3 else highlightSearchTerm st r3.1 r3.2
    | none => r3) with hr4
  have h4 : CanonStore r4.2 := by
    rw [hr4]
    rcases opts1.searchTerm with - | st
    · exact h3
    · by_cases he : st.isEmpty = true
      · simpa [he] using h3
      · simpa [he] using (highlightSearchTerm_canon st r3.1 h3).1
  by_cases hmh : opts1.mentionHighlight.getD true = true
  · simpa [hmh] using (highlightCurrentMentions_canon env.mentionKeys r4.1 h4).1
  · simpa [hmh] using h4

/-! ## Lemmas: where link tokens come from -/

/-- An entry of `Map.set`'s result was already present or is the entry set. -/
theorem mem_mapSet {m : TokenStore} {k : Str} {v : Token} {e : Str × Token}
    (h : e ∈ mapSet m k v) : e ∈ m ∨ e = (k, v) := by
  unfold mapSet at h
  by_cases hany : m.any (fun x => x.1 = k) = true
  · rw [if_pos hany] at h
    obtain ⟨x, hx, hxe⟩ := List.mem_map.mp h
    by_cases hxk : x.1 = k
    · right
      rw [if_pos hxk] at hxe
      exact hxe.symm
    · left
      rw [if_neg hxk] at hxe
      exact hxe ▸ hx
  · rw [if_neg hany] at h
    rcases List.mem_append.mp h with h1 | h1
    · exact Or.inl h1
    · exact Or.inr (List.mem_singleton.mp h1)

/-- Every token the Autolinker fold adds to the store comes from a `link`
segment: it is exactly the normalized anchor for the matched span (label = the
span, target scheme-normalized) and its alias carries the `MM_LINK` prefix. -/
theorem autolinkerLink_foldl_origin :
    ∀ (segs : List Seg) (acc : Str × TokenStore) (e : Str × Token),
      e ∈ (segs.foldl autolinkerStep acc).2 →
      e ∈ acc.2 ∨
        ∃ s, Seg.link s ∈ segs ∧ e.2 = ⟨linkValue s, s⟩ ∧ linkPfx <+: e.1 := by
  intro segs
  induction segs with
  | nil =>
      intro acc e h
      exact Or.inl h
  | cons seg rest ih =>
      intro acc e h
      rw [List.foldl_cons] at h
      rcases hstep : seg with s | s
      · rcases ih _ e (hstep ▸ h) with h1 | ⟨t, ht, hot⟩
        · exact Or.inl (by simpa [autolinkerStep] using h1)
        · exact Or.inr ⟨t, List.mem_cons_of_mem _ ht, hot⟩
      · rcases ih _ e (hstep ▸ h) with h1 | ⟨t, ht, hot⟩
        · have h2 : e ∈ mapSet acc.2 (linkPfx ++ natDigits acc.2.length)
              ⟨linkValue s, s⟩ := by
            simpa [autolinkerStep, replaceUrlWithToken] using h1
          rcases mem_mapSet h2 with h3 | h3
          · exact Or.inl h3
          · refine Or.inr ⟨s, List.mem_cons_self _ _, ?_, ?_⟩
            · rw [h3]
            · rw [h3]
              exact List.prefix_append _ _
        · exact Or.inr ⟨t, List.mem_cons_of_mem _ ht, hot⟩

/-- A matched span is a substring of the text the detector segmented. -/
theorem link_infix_segsConcat {s : Str} :
    ∀ {segs : List Seg}, Seg.link s ∈ segs → s <:+: segsConcat segs := by
  intro segs
  induction segs with
  | nil => intro h; simp at h
  | cons seg rest ih =>
      intro h
      rcases List.mem_cons.mp h with he | hm
      · exact ⟨[], segsConcat rest, by simp [segsConcat, ← he, segStr]⟩
      · obtain ⟨u, v, huv⟩ := ih hm
        refine ⟨segStr seg ++ u, v, ?_⟩
        have hcong := congrArg (fun t => segStr seg ++ t) huv
        simpa [segsConcat, List.append_assoc] using hcong

/-! ## Lemmas: the sanitizer -/

/-- A global single-character replace leaves a string without that character
unchanged. -/
theorem replaceCharAll_of_not_mem {s : Str} {c : Char} (h : c ∉ s) (repl : Str) :
    replaceCharAll s c repl = s := by
  induction s with
  | nil => rfl
  | cons d t ih =>
      have hdc : ¬ (d = c) := fun hdc => h (hdc ▸ List.mem_cons_self d t)
      have ht : c ∉ t := fun hc => h (List.mem_cons_of_mem d hc)
      simp only [replaceCharAll, List.flatMap_cons, if_neg hdc]
      simpa [replaceCharAll] using congrArg (d :: ·) (ih ht)

/-- The sanitizer leaves a string free of all five metacharacters unchanged. -/
theorem sanitizeHtml_of_clean {x : Str} (h1 : '&' ∉ x) (h2 : '<' ∉ x) (h3 : '>' ∉ x)
    (h4 : '\'' ∉ x) (h5 : '"' ∉ x) : sanitizeHtml x = x := by
  unfold sanitizeHtml
  dsimp only
  rw [replaceCharAll_of_not_mem h1, replaceCharAll_of_not_mem h2,
    replaceCharAll_of_not_mem h3, replaceCharAll_of_not_mem h4,
    replaceCharAll_of_not_mem h5]

/-! ## Lemmas: options handling -/

/-- The options object after a `formatText` call: `markdown` defaulted to
`true` when absent, everything else untouched. -/
theorem formatTextRun_options (env : Env) (text : Str) (opts : FormatOptions) :
    (formatTextRun env text opts).options =
      if opts.markdown = none then { opts with markdown := some true } else opts := rfl

/-! ## The claims -/

/-- C1: Nesting correctness via reverse-order resolution.  The resolver
processes the most recently inserted token (B) first — one resolution step on a
store extended by B replaces B's alias in the text by B's `value` and then
resolves the remaining (earlier) store on the result, so an alias of an
earlier token A embedded in B's `value` is still replaced later.  Concretely,
`"see #general"` with viewer mention key `#general` and mentionHighlight
enabled yields a mention-highlight span wrapping the full hashtag anchor. -/
theorem claim_C1_nesting_correctness :
    (∀ (text : Str) (s : TokenStore) (b : Str) (t : Token),
        replaceTokens text (s ++ [(b, t)]) =
          replaceTokens (replaceFirst text b t.value) s) ∧
    ((formatText { plainEnv with mentionKeys := [lit "#general"] }
        (lit "see #general")
        { markdown := some false, mentionHighlight := some true }).1 =
      lit "see <span class='mention-highlight'><a class='mention-link' href='#' data-hashtag='#general'>#general</a></span>") ∧
    (lit "<span class='mention-highlight'><a class='mention-link' href='#' data-hashtag='#general'>#general</a></span>" <:+:
      (formatText { plainEnv with mentionKeys := [lit "#general"] }
        (lit "see #general")
        { markdown := some false, mentionHighlight := some true }).1) := by
  refine ⟨?_, by decide, by decide⟩
  intro text s b t
  simp [replaceTokens, List.reverse_append]

/-- C2 (code bug evidence): on the input `"#MM_HASHTAG0"` the call registers
the alias `MM_HASHTAG0`, and the returned string still contains that registered
alias as a substring (inside the anchor built for the hashtag
`#MM_HASHTAG0`), contradicting resolution completeness. -/
theorem claim_C2_failing_input :
    (lit "MM_HASHTAG0") ∈ keysOf (formatTextRun plainEnv (lit "#MM_HASHTAG0")
        { markdown := some false }).tokens ∧
      (lit "MM_HASHTAG0") <:+: (formatTextRun plainEnv (lit "#MM_HASHTAG0")
        { markdown := some false }).output := by
  decide

/-- C3 (code bug evidence): on the input `"#MM_HASHTAG0"` the call generates
the alias `MM_HASHTAG0`, which appears as a literal substring of the original
input, contradicting alias safety for adversarial inputs. -/
theorem claim_C3_failing_input :
    (lit "MM_HASHTAG0") ∈ keysOf (formatTextRun plainEnv (lit "#MM_HASHTAG0")
        { markdown := some false }).tokens ∧
      (lit "MM_HASHTAG0") <:+: lit "#MM_HASHTAG0" := by
  decide

/-- Every category prefix starts with `MM_`. -/
theorem storePfxs_start_MM : ∀ p ∈ storePfxs, (lit "MM_") <+: p := by decide

/-- C3 (amended): alias safety holds for every input that does not contain the
substring `MM_`: whatever the collaborators do, every alias generated during a
`formatText` call starts with `MM_`, so none of them can occur as a substring
of such an input. -/
theorem claim_C3_alias_safety (env : Env) (text : Str) (opts : FormatOptions)
    (hclean : ¬ ((lit "MM_") <:+: text)) :
    ∀ a ∈ keysOf (formatTextRun env text opts).tokens, ¬ (a <:+: text) := by
  intro a ha hainf
  obtain ⟨e, he, hek⟩ := List.mem_map.mp ha
  obtain ⟨i, hi, hie⟩ := List.mem_iff_getElem.mp he
  obtain ⟨p, hp, hkey⟩ := formatTextRun_canon env text opts i hi
  have ha2 : a = p ++ natDigits i := by
    rw [← hek, ← hie]
    exact hkey
  have hpfx : (lit "MM_") <+: a :=
    ha2 ▸ (storePfxs_start_MM p hp).trans (List.prefix_append p _)
  exact hclean (hpfx.isInfix.trans hainf)

/-- Witness for C3 (amended) at the concrete input `"see #tag"`, whose call
generates exactly the alias `MM_HASHTAG0`. -/
theorem claim_C3_witness :
    ¬ ((lit "MM_HASHTAG0") <:+: lit "see #tag") :=
  claim_C3_alias_safety plainEnv (lit "see #tag") { markdown := some false }
    (by decide) (lit "MM_HASHTAG0") (by decide)

/-- C7: Unknown mention left literal.  A matched `@name` candidate whose
lower-cased username is neither a special reserved mention keyword nor
resolvable in the user directory produces no token and no alias: the scan
emits the boundary prefix and the mention as literal text and continues.
Concretely, `"hello @nosuchuser"` with an empty directory comes back verbatim
with an empty token store. -/
theorem claim_C7_unknown_mention_literal :
    (∀ (profile : Str → Bool) (fuel : Nat) (atStart : Bool) (s : Str)
        (m : TokenStore) (pre mention user rest : Str),
        tryAtMatch atStart s = some (pre, mention, user, rest) →
        SPECIAL_MENTIONS.contains (toLowerStr user) = false →
        profile (toLowerStr user) = false →
        scanAtMentionsAux profile (fuel + 1) atStart s m =
          (pre ++ mention ++ (scanAtMentionsAux profile fuel false rest m).1,
            (scanAtMentionsAux profile fuel false rest m).2)) ∧
    ((formatTextRun plainEnv (lit "hello @nosuchuser")
        { markdown := some false }).output = lit "hello @nosuchuser" ∧
      (formatTextRun plainEnv (lit "hello @nosuchuser")
        { markdown := some false }).tokens = []) := by
  refine ⟨?_, by decide, by decide⟩
  intro profile fuel atStart s m pre mention user rest htry hsp hpr
  have hcond : (SPECIAL_MENTIONS.contains (toLowerStr user) ||
      profile (toLowerStr user)) = false := by
    rw [hsp, hpr]
    decide
  rw [scanAtMentionsAux_succ, htry]
  dsimp only
  rw [hcond]
  simp

/-- C8: Idempotent escaping.  On a string free of the five literal
metacharacters the escaper is the identity, so applying it twice equals
applying it once. -/
theorem claim_C8_idempotent_escaping (x : Str) (h1 : '&' ∉ x) (h2 : '<' ∉ x)
    (h3 : '>' ∉ x) (h4 : '\'' ∉ x) (h5 : '"' ∉ x) :
    sanitizeHtml (sanitizeHtml x) = sanitizeHtml x := by
  conv_lhs => rw [sanitizeHtml_of_clean h1 h2 h3 h4 h5]

/-- Witness for C8 at the concrete input `"hello world"`. -/
theorem claim_C8_witness :
    sanitizeHtml (sanitizeHtml (lit "hello world")) = sanitizeHtml (lit "hello world") :=
  claim_C8_idempotent_escaping (lit "hello world") (by decide) (by decide) (by decide)
    (by decide) (by decide)

/-- C9: Store key uniqueness (invariant I1).  Every pass preserves the
canonical shape of the store (the `i`-th key is a category prefix plus the
decimal of `i`, because each registration derives its index from the current
store size, plus the pending map size during re-wrap phases) and only appends
keys (the store grows, entries are never deleted); a canonical store has
pairwise-distinct keys; and the store of any `formatText` call is canonical at
every pass boundary, hence its keys are pairwise distinct throughout. -/
theorem claim_C9_store_key_uniqueness :
    (∀ (m : TokenStore) (p : Str) (v : Token), p ∈ storePfxs → CanonStore m →
        CanonStore (mapSet m (p ++ natDigits m.length) v) ∧
          keysOf m <+: keysOf (mapSet m (p ++ natDigits m.length) v)) ∧
    (∀ (detect : Str → List Seg) (markdown : Bool) (text : Str) (m : TokenStore),
        CanonStore m →
        CanonStore (autolinkUrls detect markdown text m).2 ∧
          keysOf m <+: keysOf (autolinkUrls detect markdown text m).2) ∧
    (∀ (profile : Str → Bool) (text : Str) (m : TokenStore), CanonStore m →
        CanonStore (autolinkAtMentions profile text m).2 ∧
          keysOf m <+: keysOf (autolinkAtMentions profile text m).2) ∧
    (∀ (text : Str) (m : TokenStore), CanonStore m →
        CanonStore (autolinkHashtags text m).2 ∧
          keysOf m <+: keysOf (autolinkHashtags text m).2) ∧
    (∀ (st text : Str) (m : TokenStore), CanonStore m →
        CanonStore (highlightSearchTerm st text m).2 ∧
          keysOf m <+: keysOf (highlightSearchTerm st text m).2) ∧
    (∀ (keys : List Str) (text : Str) (m : TokenStore), CanonStore m →
        CanonStore (highlightCurrentMentions keys text m).2 ∧
          keysOf m <+: keysOf (highlightCurrentMentions keys text m).2) ∧
    (∀ m : TokenStore, CanonStore m → (keysOf m).Nodup) ∧
    (∀ (env : Env) (text : Str) (opts : FormatOptions),
        CanonStore (formatTextRun env text opts).tokens ∧
          (keysOf (formatTextRun env text opts).tokens).Nodup) := by
  refine ⟨?_, ?_, ?_, ?_, ?_, ?_, ?_, ?_⟩
  · intro m p v hp hm
    exact canon_register hm hp v
  · intro detect markdown text m hm
    exact autolinkUrls_canon detect markdown text hm
  · intro profile text m hm
    exact autolinkAtMentions_canon profile text hm
  · intro text m hm
    exact autolinkHashtags_canon text hm
  · intro st text m hm
    exact highlightSearchTerm_canon st text hm
  · intro keys text m hm
    exact highlightCurrentMentions_canon keys text hm
  · intro m hm
    exact canon_nodup hm
  · intro env text opts
    exact ⟨formatTextRun_canon env text opts,
      canon_nodup (formatTextRun_canon env text opts)⟩

/-- C10: `formatText` writes `markdown := true` onto a caller options object
that lacks the field, and otherwise returns the options object exactly as it
was; in both cases every other field is left untouched. -/
theorem claim_C10_options_mutated :
    (∀ (env : Env) (text : Str) (opts : FormatOptions), opts.markdown = none →
        (formatText env text opts).2 = { opts with markdown := some true }) ∧
    (∀ (env : Env) (text : Str) (opts : FormatOptions), opts.markdown ≠ none →
        (formatText env text opts).2 = opts) := by
  constructor
  · intro env text opts h
    show (formatTextRun env text opts).options = _
    rw [formatTextRun_options, if_pos h]
  · intro env text opts h
    show (formatTextRun env text opts).options = _
    rw [formatTextRun_options, if_neg h]

/-- C4: Markdown-link shielding.  For the input `"[text](http://example.com)"`
with markdown enabled: the markdown link tail is shielded before detection, so
the text any detector sees does not contain the URL; consequently, whatever the
external detector matches, no registered token's original text contains the
URL, and the shared store receives only `MM_LINK`-prefixed aliases (the private
`MM_MARKDOWNLINK` placeholders never enter it).  With a detector that matches
nothing, the placeholders are restored and the call returns the input verbatim
with an empty shared store. -/
theorem claim_C4_markdown_link_shielding :
    (∀ (detect : Str → List Seg), (∀ t, segsConcat (detect t) = t) →
      (¬ ((lit "http://example.com") <:+:
          (shieldMd (lit "[text](http://example.com)")).1)) ∧
      (∀ e ∈ (autolinkUrls detect true (lit "[text](http://example.com)") []).2,
          ¬ ((lit "http://example.com") <:+: e.2.originalText) ∧ linkPfx <+: e.1)) ∧
    (autolinkUrls noLinkDetect true (lit "[text](http://example.com)") [] =
      (lit "[text](http://example.com)", ([] : TokenStore))) := by
  refine ⟨?_, by decide⟩
  intro detect hdet
  refine ⟨by decide, ?_⟩
  intro e he
  have hsh : (shieldMd (lit "[text](http://example.com)")).1 =
      lit "[textMM_MARKDOWNLINK0" := by decide
  have hstore : (autolinkUrls detect true (lit "[text](http://example.com)") []).2 =
      ((detect (lit "[textMM_MARKDOWNLINK0")).foldl autolinkerStep
        (([], []) : Str × TokenStore)).2 := by
    unfold autolinkUrls autolinkerLink
    simp [hsh]
  rw [hstore] at he
  rcases autolinkerLink_foldl_origin _ _ e he with hin | ⟨s, hs, hot, hpfx⟩
  · simp at hin
  · refine ⟨?_, hpfx⟩
    intro hinf
    have hsin : s <:+: segsConcat (detect (lit "[textMM_MARKDOWNLINK0")) :=
      link_infix_segsConcat hs
    rw [hdet] at hsin
    rw [hot] at hinf
    have hbad : (lit "http://example.com") <:+: lit "[textMM_MARKDOWNLINK0" :=
      List.IsInfix.trans hinf hsin
    exact absurd hbad (by decide)

/-- C5 (counterexample): with viewer mention key `"a.c"` the input `"abc"` is
wrapped in a mention-highlight span although the key does not occur in the
input at all — the key was interpolated into the regex unescaped, so its `.`
matched `b` as a wildcard; the keys are not matched as literal strings. -/
theorem claim_C5_counterexample :
    ((formatText { plainEnv with mentionKeys := [lit "a.c"] } (lit "abc")
        { markdown := some false }).1 =
      lit "<span class='mention-highlight'>abc</span>") ∧
    ¬ ((lit "a.c") <:+: lit "abc") := by
  decide

/-- For a key without the `.` metacharacter, the pattern matcher is the
literal matcher. -/
theorem matchKey_eq_lit {key : Str} (hk : '.' ∉ key) :
    ∀ s, matchKey key s = matchKeyLit key s := by
  induction key with
  | nil => intro s; rfl
  | cons k ks ih =>
      intro s
      have hkdot : ¬ (k = '.') := fun h => hk (h ▸ List.mem_cons_self k ks)
      have hks : '.' ∉ ks := fun h => hk (List.mem_cons_of_mem k h)
      cases s with
      | nil => rfl
      | cons c cs =>
          simp only [matchKey, matchKeyLit, hkdot, ih hks, decide_not]
          simp [hkdot]

/-- For a key without the `.` metacharacter, one match attempt of the
interpolated regex equals the literal attempt. -/
theorem tryKeyMatch_eq_lit {key : Str} (hk : '.' ∉ key) (atStart : Bool) (s : Str) :
    tryKeyMatch key atStart s = tryKeyMatchLit key atStart s := by
  unfold tryKeyMatch tryKeyMatchLit
  cases s with
  | nil => rw [matchKey_eq_lit hk]
  | cons c cs =>
      dsimp only
      simp only [matchKey_eq_lit hk]

/-- One-step unfolding of the literal key scan. -/
theorem scanKeyLitAux_succ (pfx : Str) (mkVal : Str → Str) (key : Str) (fuel : Nat)
    (atStart : Bool) (s : Str) (m : TokenStore) :
    scanKeyLitAux pfx mkVal key (fuel + 1) atStart s m =
      match tryKeyMatchLit key atStart s with
      | some (pre, word, rest) =>
          let aliasStr := pfx ++ natDigits m.length
          let tokens1 := mapSet m aliasStr ⟨mkVal word, word⟩
          if (pre ++ word).isEmpty then
            match rest with
            | [] => (aliasStr, tokens1)
            | c :: rest1 =>
                let r := scanKeyLitAux pfx mkVal key fuel false rest1 tokens1
                (aliasStr ++ (c :: r.1), r.2)
          else
            let r := scanKeyLitAux pfx mkVal key fuel false rest tokens1
            (pre ++ aliasStr ++ r.1, r.2)
      | none =>
        match s with
        | [] => ([], m)
        | c :: rest =>
            let r := scanKeyLitAux pfx mkVal key fuel false rest m
            (c :: r.1, r.2) := rfl

/-- For a key without the `.` metacharacter, the whole phase (b) scan behaves
as the literal scan. -/
theorem scanKeyAux_eq_lit (pfx : Str) (mkVal : Str → Str) {key : Str}
    (hk : '.' ∉ key) :
    ∀ fuel atStart s m, scanKeyAux pfx mkVal key fuel atStart s m =
      scanKeyLitAux pfx mkVal key fuel atStart s m := by
  intro fuel
  induction fuel with
  | zero => intro atStart s m; rfl
  | succ fuel ih =>
      intro atStart s m
      rw [scanKeyAux_succ, scanKeyLitAux_succ, tryKeyMatch_eq_lit hk]
      rcases htry : tryKeyMatchLit key atStart s with - | ⟨pre, word, rest⟩
      · rcases s with - | ⟨c, rest⟩
        · rfl
        · simp [ih]
      · dsimp only
        by_cases hemp : (pre ++ word).isEmpty = true
        · rcases rest with - | ⟨c, rest1⟩ <;> simp [hemp, ih]
        · simp [hemp, ih]

/-- C5 (amended): every key follows the same code path — interpolated into a
case-insensitive whole-word regex — but the interpolation is unescaped, so the
key is matched as a regex *pattern*: `.` in a key matches any character (key
`"a.c"` matches `"abc"`, which the literal matcher rejects); a key free of
regex metacharacters (every character `regexLiteralChar`) is matched as a
literal — the pattern scan coincides with the literal scan modelled from the
spec's words — as in the concrete run on key `"general"`. -/
theorem claim_C5_keys_matched_as_patterns :
    (∀ (key : Str), (∀ c ∈ key, regexLiteralChar c = true) →
        ∀ (s : Str), matchKey key s = matchKeyLit key s) ∧
    (∀ (key : Str), (∀ c ∈ key, regexLiteralChar c = true) →
        ∀ (fuel : Nat) (atStart : Bool) (s : Str) (m : TokenStore),
        scanKeyAux selfMentionPfx mentionSpanValue key fuel atStart s m =
          scanKeyLitAux selfMentionPfx mentionSpanValue key fuel atStart s m) ∧
    (matchKey (lit "a.c") (lit "abc") = some (lit "abc", [])) ∧
    (matchKeyLit (lit "a.c") (lit "abc") = none) ∧
    ((formatText { plainEnv with mentionKeys := [lit "general"] } (lit "hi general")
        { markdown := some false }).1 =
      lit "hi <span class='mention-highlight'>general</span>") := by
  have hdot : ∀ (key : Str), (∀ c ∈ key, regexLiteralChar c = true) → '.' ∉ key := by
    intro key h hmem
    exact absurd (h '.' hmem) (by decide)
  refine ⟨?_, ?_, by decide, by decide, by decide⟩
  · intro key hk s
    exact matchKey_eq_lit (hdot key hk) s
  · intro key hk fuel atStart s m
    exact scanKeyAux_eq_lit selfMentionPfx mentionSpanValue (hdot key hk) fuel atStart s m

/-- `autolinkUrls` with markdown disabled is exactly the detector splice. -/
theorem autolinkUrls_markdown_false (detect : Str → List Seg) (text : Str)
    (m : TokenStore) :
    autolinkUrls detect false text m = autolinkerLink (detect text) m := by
  simp [autolinkUrls]

/-- The concrete C6 run: with a detector matching the bare domain, the full
pipeline emits the normalized anchor. -/
theorem c6_concrete_run (detect : Str → List Seg)
    (h : detect (lit "visit example.com now") =
      [Seg.plain (lit "visit "), Seg.link (lit "example.com"),
        Seg.plain (lit " now")]) :
    (formatText { plainEnv with detect := detect } (lit "visit example.com now")
      { markdown := some false }).1 =
    lit "visit <a class='theme' target='_blank' href='http://example.com'>example.com</a> now" := by
  have h1 : autolinkUrls detect false (lit "visit example.com now") [] =
      (lit "visit MM_LINK0 now",
       [(lit "MM_LINK0",
         ⟨lit "<a class='theme' target='_blank' href='http://example.com'>example.com</a>",
          lit "example.com"⟩)]) := by
    rw [autolinkUrls_markdown_false, h]
    decide
  have hs : sanitizeHtml (lit "visit example.com now") =
      lit "visit example.com now" := by decide
  have h2 : (formatTextRun { plainEnv with detect := detect }
      (lit "visit example.com now") { markdown := some false }).output =
      lit "visit <a class='theme' target='_blank' href='http://example.com'>example.com</a> now" := by
    unfold formatTextRun
    simp only [Option.some.injEq, reduceCtorEq, if_false, Option.getD_some,
      Bool.not_false, if_true, Bool.false_eq_true]
    rw [hs, h1]
    decide
  exact h2

/-- C6: URL normalization.  Every token the link tokenizer registers, for any
detector output, is the anchor `linkValue s` of the matched text `s`; for a
bare `s` lacking the `http` scheme that anchor's `href` is `http://s` while the
label stays `s`; and with the external detector matching the bare domain
`example.com` in `"visit example.com now"`, the pipeline emits
`<a ... href='http://example.com'>example.com</a>`. -/
theorem claim_C6_url_normalization :
    (∀ (segs : List Seg) (e : Str × Token),
        e ∈ (autolinkerLink segs []).2 →
        ∃ s, Seg.link s ∈ segs ∧ e.2 = ⟨linkValue s, s⟩) ∧
    (∀ (linkText : Str), ¬ ((lit "http").isPrefixOf linkText = true) →
        linkValue linkText =
          lit "<a class='theme' target='_blank' href='http://" ++ linkText ++
            lit "'>" ++ linkText ++ lit "</a>") ∧
    (∀ (detect : Str → List Seg),
        detect (lit "visit example.com now") =
          [Seg.plain (lit "visit "), Seg.link (lit "example.com"),
            Seg.plain (lit " now")] →
        (formatText { plainEnv with detect := detect } (lit "visit example.com now")
          { markdown := some false }).1 =
        lit "visit <a class='theme' target='_blank' href='http://example.com'>example.com</a> now") := by
  refine ⟨?_, ?_, ?_⟩
  · intro segs e he
    rcases autolinkerLink_foldl_origin segs (([], []) : Str × TokenStore) e he with
      hin | ⟨s, hs, hot, -⟩
    · simp at hin
    · exact ⟨s, hs, hot⟩
  · intro linkText h
    unfold linkValue
    dsimp only
    rw [if_neg h]
    have hsplit : lit "<a class='theme' target='_blank' href='" ++ lit "http://" =
        lit "<a class='theme' target='_blank' href='http://" := by decide
    rw [← hsplit]
    simp [List.append_assoc]
  · intro detect h
    exact c6_concrete_run detect h

/-- Witness for C6: the hypothesis holds for the concrete detector
`c6detect`. -/
theorem claim_C6_witness :
    (formatText { plainEnv with detect := c6detect } (lit "visit example.com now")
      { markdown := some false }).1 =
    lit "visit <a class='theme' target='_blank' href='http://example.com'>example.com</a> now" :=
  claim_C6_url_normalization.2.2 c6detect (by decide)

end TextFormatting
